import Mathlib

/-!
Verification of the incremental price-data update script
(`src/bittensor/fetch_data.py`, function `fetch_and_save_data`).

The script loads a persisted series of `[timestamp_seconds, price]` pairs,
derives a cursor from the last entry, fetches a batch of raw
`[timestamp_milliseconds, price]` points, normalizes the timestamps to
seconds by integer floor division by 1000, appends exactly those candidates
whose normalized timestamp is strictly greater than the last persisted
timestamp and does not occur among the existing timestamps, and, when at
least one candidate was appended, sorts the combined list by timestamp
(Python's stable `list.sort` with key `x[0]`) and rewrites the file.

Timestamps are Python integers, embedded as `ℤ` (Python `//` is floor
division, `Int.fdiv`).  Prices are only carried around, never computed
with or compared, so they are embedded as exact rationals `ℚ`.
Python's `list.sort` is a stable sort; `List.insertionSort` with the
key ordering is stable in the same sense, so it is a faithful model.
-/

namespace FetchData

/-- An observation `(timestamp, price)`, the element type of both the
persisted series and a fetched batch. -/
abbrev Obs : Type := ℤ × ℚ

/-- The ordering the script sorts by: `key=lambda x: x[0]`. -/
def keyLe (a b : Obs) : Prop := a.1 ≤ b.1

instance : DecidableRel keyLe := fun a b => Int.decLe a.1 b.1

instance : IsTotal Obs keyLe := ⟨fun a b => Int.le_total a.1 b.1⟩

instance : IsTrans Obs keyLe := ⟨fun _ _ _ hab hbc => le_trans hab hbc⟩

/-- Timestamp normalization of one fetched batch:
`timestamp_sec = timestamp_ms // 1000` (line 74), price carried unchanged. -/
def normalizeBatch (raw : List Obs) : List Obs :=
  raw.map (fun e => (e.1.fdiv 1000, e.2))

/-- The cursor the script derives from the loaded series:
`existing_data[-1][0]` when the list is non-empty, `0` otherwise
(lines 22, 28-30). -/
def lastTimestamp (l : List Obs) : ℤ :=
  match l.getLast? with
  | none => 0
  | some e => e.1

/-- The entries the loop of lines 72-80 appends: candidates (already
normalized to seconds) whose timestamp is strictly beyond the cursor and
does not occur among the existing timestamps.  The set
`existing_timestamps` is built once before the loop (line 70), so the
filter tests membership in the original `existing` only. -/
def newEntries (existing : List Obs) (lastTs : ℤ) (cands : List Obs) : List Obs :=
  cands.filter (fun c => decide (lastTs < c.1 ∧ c.1 ∉ existing.map Prod.fst))

/-- The Merger on already-normalized candidates (the loop of lines 72-80
followed by the conditional sort of lines 82-84): when no candidate
survives the filter, the in-memory series is left exactly as loaded;
otherwise the appended list is sorted by timestamp. -/
def mergeCands (existing : List Obs) (cands : List Obs) : List Obs :=
  let news := newEntries existing (lastTimestamp existing) cands
  if news = [] then existing else List.insertionSort keyLe (existing ++ news)

/-- The Merger on a raw (millisecond-timestamped) batch, as the script
runs it: normalization followed by `mergeCands`. -/
def merge (existing : List Obs) (raw : List Obs) : List Obs :=
  mergeCands existing (normalizeBatch raw)

/-- The surviving candidates of a run of `merge existing raw`. -/
def candNew (existing : List Obs) (raw : List Obs) : List Obs :=
  newEntries existing (lastTimestamp existing) (normalizeBatch raw)

/-- Outcome of the single HTTP fetch step (lines 56-64): the request can
fail on the network, return a non-success status (raised by
`raise_for_status`), return an undecodable body, or return a decodable
body whose `prices` field is not a list; otherwise it yields the raw
batch. -/
inductive ApiResponse : Type
  | netError
  | httpError
  | decodeError
  | pricesNotList
  | prices (raw : List Obs)

/-- Outcome of loading the persisted file (lines 25-37): the file can be
read and decoded, be absent, or hold content `json.load` rejects. -/
inductive LoadResult : Type
  | ok (data : List Obs)
  | fileNotFound
  | jsonError

/-- State after the load step: the in-memory series and the cursor
`last_timestamp_sec`.  Both exception branches leave the initial values
`[]` and `0` (lines 21-22, 34-37). -/
def loadState : LoadResult → List Obs × ℤ
  | .ok d => (d, lastTimestamp d)
  | .fileNotFound => ([], 0)
  | .jsonError => ([], 0)

/-- Number of days requested upstream (lines 40-51), as a function of the
elapsed whole days since the cursor and of the cursor itself.  With prior
data the window is the elapsed days plus a 2-day buffer, capped at 365;
with no prior data the script requests 1000. -/
def daysToFetch (elapsedDays : ℤ) (lastTs : ℤ) : ℤ :=
  if 0 < lastTs then
    if 365 < elapsedDays + 2 then 365 else elapsedDays + 2
  else 1000

/-- One run from the fetch step on: `some l` means the file is rewritten
with `l`; `none` means no write happens.  Every error branch (the three
except clauses and the format check of lines 62-64) returns before the
write; the success branch writes only when at least one entry was
appended (lines 82-90). -/
def runOnce (existing : List Obs) (lastTs : ℤ) (resp : ApiResponse) : Option (List Obs) :=
  match resp with
  | .netError => none
  | .httpError => none
  | .decodeError => none
  | .pricesNotList => none
  | .prices raw =>
      let news := newEntries existing lastTs (normalizeBatch raw)
      if news = [] then none else some (List.insertionSort keyLe (existing ++ news))

/-! ### Basic lemmas about the merge -/

theorem mem_newEntries {existing : List Obs} {lastTs : ℤ} {cands : List Obs} {c : Obs} :
    c ∈ newEntries existing lastTs cands ↔
      c ∈ cands ∧ lastTs < c.1 ∧ c.1 ∉ existing.map Prod.fst := by
  simp [newEntries, List.mem_filter]

theorem newEntries_eq_nil_iff {existing : List Obs} {lastTs : ℤ} {cands : List Obs} :
    newEntries existing lastTs cands = [] ↔
      ∀ c ∈ cands, ¬(lastTs < c.1 ∧ c.1 ∉ existing.map Prod.fst) := by
  simp [newEntries, List.filter_eq_nil_iff]

theorem merge_eq_ite (S B : List Obs) :
    merge S B =
      if candNew S B = [] then S
      else List.insertionSort keyLe (S ++ candNew S B) := rfl

theorem mem_candNew {S B : List Obs} {c : Obs} :
    c ∈ candNew S B ↔
      c ∈ normalizeBatch B ∧ lastTimestamp S < c.1 ∧ c.1 ∉ S.map Prod.fst :=
  mem_newEntries

theorem merge_perm (S B : List Obs) : List.Perm (merge S B) (S ++ candNew S B) := by
  rw [merge_eq_ite]
  split
  · next h => rw [h]; simp
  · exact List.perm_insertionSort _ _

theorem mem_merge_iff {S B : List Obs} {e : Obs} :
    e ∈ merge S B ↔ e ∈ S ∨ e ∈ candNew S B := by
  rw [(merge_perm S B).mem_iff, List.mem_append]

theorem mem_merge_of_mem {S B : List Obs} {e : Obs} (h : e ∈ S) : e ∈ merge S B :=
  mem_merge_iff.2 (Or.inl h)

theorem lastTimestamp_of_ne_nil {l : List Obs} (h : l ≠ []) :
    lastTimestamp l = (l.getLast h).1 := by
  unfold lastTimestamp
  rw [List.getLast?_eq_getLast_of_ne_nil h]

theorem le_lastTimestamp_of_mem :
    ∀ {l : List Obs}, l.Sorted keyLe → ∀ {e : Obs}, e ∈ l → e.1 ≤ lastTimestamp l
  | [], _, _, he => absurd he (List.not_mem_nil _)
  | [a], _, e, he => by
      rw [List.mem_singleton] at he
      subst he
      simp [lastTimestamp]
  | a :: b :: t, h, e, he => by
      have htail : (b :: t).Sorted keyLe := h.of_cons
      have hlast : lastTimestamp (a :: b :: t) = lastTimestamp (b :: t) := by
        unfold lastTimestamp
        rw [List.getLast?_cons_cons]
      rw [hlast]
      rcases List.mem_cons.1 he with he | he
      · subst he
        have hmem : (b :: t).getLast (List.cons_ne_nil _ _) ∈ b :: t :=
          List.getLast_mem _
        have := List.rel_of_sorted_cons h _ hmem
        rw [lastTimestamp_of_ne_nil (List.cons_ne_nil _ _)]
        exact this
      · exact le_lastTimestamp_of_mem htail he

theorem sorted_merge {S B : List Obs} (hS : S.Sorted keyLe) :
    (merge S B).Sorted keyLe := by
  rw [merge_eq_ite]
  split
  · exact hS
  · exact List.sorted_insertionSort keyLe _

theorem merge_ne_nil_of_candNew_ne_nil {S B : List Obs} (h : candNew S B ≠ []) :
    merge S B ≠ [] := by
  intro hcontra
  have hlen := (merge_perm S B).length_eq
  rw [hcontra, List.length_nil, List.length_append] at hlen
  exact h (List.length_eq_zero.1 (by omega))

theorem lastTimestamp_le_merge (S B : List Obs) :
    lastTimestamp S ≤ lastTimestamp (merge S B) := by
  by_cases hnil : candNew S B = []
  · rw [merge_eq_ite, if_pos hnil]
  · have hM : merge S B ≠ [] := merge_ne_nil_of_candNew_ne_nil hnil
    have hsort : (merge S B).Sorted keyLe := by
      rw [merge_eq_ite, if_neg hnil]
      exact List.sorted_insertionSort keyLe _
    by_cases hSnil : S = []
    · subst hSnil
      have hmem : (merge [] B).getLast hM ∈ merge [] B := List.getLast_mem hM
      rcases mem_merge_iff.1 hmem with hmem2 | hmem2
      · exact absurd hmem2 (List.not_mem_nil _)
      · have hlt := (mem_candNew.1 hmem2).2.1
        rw [lastTimestamp_of_ne_nil hM]
        exact le_of_lt hlt
    · have hmem : S.getLast hSnil ∈ S := List.getLast_mem hSnil
      have hmemM : S.getLast hSnil ∈ merge S B := mem_merge_of_mem hmem
      rw [lastTimestamp_of_ne_nil hSnil]
      exact le_lastTimestamp_of_mem hsort hmemM

theorem candNew_merge_eq_nil (S B : List Obs) :
    candNew (merge S B) B = [] := by
  unfold candNew
  rw [newEntries_eq_nil_iff]
  intro c hc
  rintro ⟨h1, h2⟩
  by_cases hfirst : lastTimestamp S < c.1 ∧ c.1 ∉ S.map Prod.fst
  · exact h2 (List.mem_map_of_mem Prod.fst
      (mem_merge_iff.2 (Or.inr (mem_newEntries.2 ⟨hc, hfirst⟩))))
  · rcases not_and_or.1 hfirst with hlt | hmem
    · exact absurd (lt_of_le_of_lt (lastTimestamp_le_merge S B) h1)
        (by omega)
    · rw [not_not] at hmem
      rcases List.mem_map.1 hmem with ⟨e, heS, hfst⟩
      exact h2 (List.mem_map.2 ⟨e, mem_merge_of_mem heS, hfst⟩)

theorem merge_merge (S B : List Obs) : merge (merge S B) B = merge S B := by
  rw [merge_eq_ite (merge S B) B, if_pos (candNew_merge_eq_nil S B)]

theorem snd_eq_of_nodup_map_fst :
    ∀ {S : List Obs}, (S.map Prod.fst).Nodup →
      ∀ {t : ℤ} {p q : ℚ}, (t, p) ∈ S → (t, q) ∈ S → p = q
  | [], _, _, _, _, hp, _ => absurd hp (List.not_mem_nil _)
  | a :: T, h, t, p, q, hp, hq => by
      rw [List.map_cons, List.nodup_cons] at h
      rcases List.mem_cons.1 hp with hp | hp <;> rcases List.mem_cons.1 hq with hq | hq
      · rw [← hp] at hq
        exact congrArg Prod.snd hq.symm
      · exfalso
        apply h.1
        exact List.mem_map.2 ⟨(t, q), hq, by rw [← hp]⟩
      · exfalso
        apply h.1
        exact List.mem_map.2 ⟨(t, p), hp, by rw [← hq]⟩
      · exact snd_eq_of_nodup_map_fst h.2 hp hq

/-! ### Claim theorems -/

/-- Claim C1: on a timestamp collision the existing entry's value is kept:
every entry of the merged result whose timestamp already occurs in the
existing series is an entry of the existing series (so it carries the
price the existing series records for that timestamp), and a candidate
whose timestamp already exists is discarded — at a timestamp the existing
series holds, no other price can appear in the result. -/
theorem merge_keeps_existing_on_collision (S B : List Obs)
    (hnd : (S.map Prod.fst).Nodup) :
    (∀ e ∈ merge S B, e.1 ∈ S.map Prod.fst → e ∈ S) ∧
    (∀ t : ℤ, ∀ p q : ℚ, (t, p) ∈ S → (t, q) ∈ merge S B → q = p) := by
  constructor
  · intro e he hts
    rcases mem_merge_iff.1 he with h | h
    · exact h
    · exact absurd hts (mem_candNew.1 h).2.2
  · intro t p q hp hq
    have hts : t ∈ S.map Prod.fst := List.mem_map.2 ⟨(t, p), hp, rfl⟩
    rcases mem_merge_iff.1 hq with h | h
    · exact snd_eq_of_nodup_map_fst hnd h hp
    · exact absurd hts (mem_candNew.1 h).2.2

/-- Witness for C1 at a concrete input: with existing series
`[(100, 1), (200, 2)]` and a raw batch whose sole point normalizes to the
colliding timestamp `200`, the result entry at `200` is the existing one. -/
theorem merge_keeps_existing_on_collision_witness :
    ((200 : ℤ), (2 : ℚ)) ∈ [((100 : ℤ), (1 : ℚ)), (200, 2)] :=
  (merge_keeps_existing_on_collision [((100 : ℤ), (1 : ℚ)), (200, 2)]
      [(200500, 99/10)] (by decide)).1
    ((200 : ℤ), (2 : ℚ)) (by decide) (by decide)

/-- Claim C2 counterexample: on the spec's own example the code does NOT
produce the expected series — the incoming `150` entry is dropped by the
`timestamp_sec > last_timestamp_sec` filter (line 78), because `150` is
not beyond the last existing timestamp `200`. -/
theorem merge_example_counterexample :
    mergeCands [((100 : ℤ), (1 : ℚ)), (200, 2)] [(150, 3/2), (200, 99/10), (300, 3)] ≠
      [(100, 1), (150, 3/2), (200, 2), (300, 3)] := by decide

/-- Claim C2 amended: on the spec's example the code produces
`[(100, 1), (200, 2), (300, 3)]` — the `150` candidate is discarded
(its timestamp is not strictly greater than the last existing timestamp
`200`), the existing `200` entry's value `2` wins over the incoming
`99/10`, and only the `300` entry is appended. -/
theorem merge_example_actual :
    mergeCands [((100 : ℤ), (1 : ℚ)), (200, 2)] [(150, 3/2), (200, 99/10), (300, 3)] =
      [(100, 1), (200, 2), (300, 3)] := by decide

/-- Claim C3 counterexample: a batch in which two raw observations
normalize to the same second (`200000 ms` and `200500 ms` both floor to
`200 s`) defeats deduplication — `existing_timestamps` is built once
before the loop (line 70) and never extended, so both candidates are
appended and the result carries a duplicated timestamp even though the
existing series' timestamps were unique. -/
theorem merge_unique_counterexample :
    (([((100 : ℤ), (1 : ℚ))].map Prod.fst).Nodup) ∧
    ¬ ((merge [((100 : ℤ), (1 : ℚ))] [(200000, 1), (200500, 2)]).map Prod.fst).Nodup := by
  decide

/-- Claim C3 amended: when the existing series has unique timestamps and,
additionally, no two raw observations of the batch normalize to the same
second, the merged result has unique timestamps. -/
theorem merge_nodup_of_batch_nodup (S B : List Obs)
    (hS : (S.map Prod.fst).Nodup)
    (hB : ((normalizeBatch B).map Prod.fst).Nodup) :
    ((merge S B).map Prod.fst).Nodup := by
  have hperm := (merge_perm S B).map Prod.fst
  rw [hperm.nodup_iff, List.map_append, List.nodup_append]
  refine ⟨hS, ?_, ?_⟩
  · have hsub : List.Sublist (candNew S B) (normalizeBatch B) :=
      List.filter_sublist _
    exact List.Nodup.sublist (hsub.map Prod.fst) hB
  · intro a haS hacand
    rcases List.mem_map.1 hacand with ⟨c, hc, hfst⟩
    exact (mem_candNew.1 hc).2.2 (by rw [hfst]; exact haS)

/-- Witness for the amended C3 at a concrete input: existing `[(100, 1)]`
and a raw batch normalizing to the distinct seconds `200` and `300`. -/
theorem merge_nodup_of_batch_nodup_witness :
    ((merge [((100 : ℤ), (1 : ℚ))] [(200000, 1), (300000, 2)]).map Prod.fst).Nodup :=
  merge_nodup_of_batch_nodup [((100 : ℤ), (1 : ℚ))] [(200000, 1), (300000, 2)]
    (by decide) (by decide)

/-- Claim C4: whenever a run writes the file, the written series is
sorted ascending by timestamp (lines 82-87 sort before writing), and the
merge of a sorted existing series with any batch is sorted. -/
theorem merged_output_sorted :
    (∀ (E : List Obs) (t : ℤ) (resp : ApiResponse) (l : List Obs),
        runOnce E t resp = some l → l.Sorted keyLe) ∧
    (∀ S B : List Obs, S.Sorted keyLe → (merge S B).Sorted keyLe) := by
  constructor
  · intro E t resp l h
    cases resp with
    | netError => exact absurd h (by simp [runOnce])
    | httpError => exact absurd h (by simp [runOnce])
    | decodeError => exact absurd h (by simp [runOnce])
    | pricesNotList => exact absurd h (by simp [runOnce])
    | prices raw =>
        by_cases hnews : newEntries E t (normalizeBatch raw) = []
        · simp [runOnce, hnews] at h
        · simp only [runOnce, if_neg hnews, Option.some.injEq] at h
          rw [← h]
          exact List.sorted_insertionSort keyLe _
  · intro S B hS
    exact sorted_merge hS

/-- Witness for C4 at a concrete input: a fresh run that fetches the raw
point `(1000 ms, 1)` writes `[(1, 1)]`, which is sorted. -/
theorem merged_output_sorted_witness :
    List.Sorted keyLe [((1 : ℤ), (1 : ℚ))] :=
  merged_output_sorted.1 [] 0 (.prices [(1000, 1)]) [(1, 1)] (by decide)

/-- Claim C5: merging the same batch a second time changes nothing —
every candidate either was appended the first time (its timestamp is now
among the existing timestamps) or is at or before the new last timestamp,
so the second run's filter discards everything. -/
theorem merge_idempotent (S B : List Obs) :
    merge (merge S B) B = merge S B :=
  merge_merge S B

/-- Claim C6: every failing fetch outcome — network error, non-success
HTTP status, undecodable body, or a `prices` field that is not a list —
returns before the write, leaving the persisted file untouched. -/
theorem fetch_failure_no_write (E : List Obs) (t : ℤ) :
    runOnce E t .netError = none ∧ runOnce E t .httpError = none ∧
    runOnce E t .decodeError = none ∧ runOnce E t .pricesNotList = none :=
  ⟨rfl, rfl, rfl, rfl⟩

/-- Claim C7 (code bug): in the fresh-start branch (cursor `0`, no prior
data) the script requests `days=1000` (line 50), exceeding the 365-day
cap that its own comments and print statements on lines 49 and 51 claim,
and that the incremental branch enforces on lines 44-46. -/
theorem daysToFetch_fresh_exceeds_cap (elapsedDays : ℤ) :
    daysToFetch elapsedDays 0 = 1000 ∧ 365 < daysToFetch elapsedDays 0 := by
  constructor <;> simp [daysToFetch]

/-- Claim C8: a missing or undecodable prior file is not fatal — both
exception branches leave the in-memory series empty and the cursor at
`0`, exactly the fresh-run state, and a merge from that state draws every
entry from the fetched batch alone. -/
theorem load_failure_treated_as_fresh :
    loadState .fileNotFound = ([], 0) ∧ loadState .jsonError = ([], 0) ∧
    ∀ raw : List Obs, ∀ e ∈ merge ([] : List Obs) raw, e ∈ normalizeBatch raw := by
  refine ⟨rfl, rfl, ?_⟩
  intro raw e he
  rcases mem_merge_iff.1 he with h | h
  · exact absurd h (List.not_mem_nil _)
  · exact (mem_candNew.1 h).1

/-- Witness for C8 at a concrete input: after a failed load, merging the
raw batch `[(1000 ms, 1)]` yields only the normalized fetched point. -/
theorem load_failure_treated_as_fresh_witness :
    ((1 : ℤ), (1 : ℚ)) ∈ normalizeBatch [(1000, 1)] :=
  load_failure_treated_as_fresh.2.2 [(1000, 1)] ((1 : ℤ), (1 : ℚ)) (by decide)

/-- Claim C9: for a non-empty existing series, every entry of the merged
result is either an existing entry or a fetched observation strictly
newer than the last existing timestamp, and a normalized candidate at or
before that timestamp is never appended — even when its timestamp fills
a gap absent from the series. -/
theorem merge_appends_only_after_last (S B : List Obs) (hne : S ≠ []) :
    (∀ e ∈ merge S B, e ∈ S ∨ (e ∈ normalizeBatch B ∧ lastTimestamp S < e.1)) ∧
    (∀ c ∈ normalizeBatch B, c.1 ≤ lastTimestamp S → c ∉ candNew S B) := by
  constructor
  · intro e he
    rcases mem_merge_iff.1 he with h | h
    · exact Or.inl h
    · rcases mem_candNew.1 h with ⟨h1, h2, h3⟩
      exact Or.inr ⟨h1, h2⟩
  · intro c hc hle hmem
    exact absurd (mem_candNew.1 hmem).2.1 (not_lt.2 hle)

/-- Witness for C9 at a concrete input: with existing `[(200, 2)]`, the
raw point `(150000 ms, 5)` normalizes to second `150 ≤ 200` and is not
appended, although timestamp `150` occurs nowhere in the series. -/
theorem merge_appends_only_after_last_witness :
    ((150 : ℤ), (5 : ℚ)) ∉ candNew [((200 : ℤ), (2 : ℚ))] [(150000, 5)] :=
  (merge_appends_only_after_last [((200 : ℤ), (2 : ℚ))] [(150000, 5)]
      (by decide)).2 ((150 : ℤ), (5 : ℚ)) (by decide) (by decide)

/-- Claim C10: when no fetched observation survives the filter, the run
takes the `else` branch of line 89 and never opens the file for writing,
even though the fetch succeeded and the batch was non-empty. -/
theorem no_new_entries_no_write (E : List Obs) (t : ℤ) (raw : List Obs)
    (h : newEntries E t (normalizeBatch raw) = []) :
    runOnce E t (.prices raw) = none := by
  simp [runOnce, h]

/-- Witness for C10 at a concrete input: with existing `[(100, 1)]` and
cursor `100`, the raw point `(100000 ms, 5)` normalizes to the duplicate
second `100` and nothing is written. -/
theorem no_new_entries_no_write_witness :
    runOnce [((100 : ℤ), (1 : ℚ))] 100 (.prices [(100000, 5)]) = none :=
  no_new_entries_no_write [((100 : ℤ), (1 : ℚ))] 100 [(100000, 5)] (by decide)

end FetchData
